import Mathlib

/-!
Verification of the markdown macro-expansion engine in
`src/tools/preprocessor.js` (functions `runCommands`, `applyCommand`,
`generateTableOfContents`).

Shallow embedding conventions:
* JS strings are `List Char` (`Str`); `substring`, `trim`, `split` etc. are
  modelled by the corresponding list operations.
* The file-system collaborator (`fs.readFileSync` after `path.resolve`) is a
  parameter `rf : Str → Option Str`; `none` means the read throws.
* A JS computation that can throw an uncaught exception is modelled as an
  `Option`: `none` is an exception propagating out of `runCommands`.
* The regexes of the scanner are hand-compiled to executable functions with
  JavaScript (non-`u`-flag) semantics: leftmost match, greedy quantifiers
  with backtracking, `i`-flag as ASCII case folding, `.` excluding line
  terminators, `\s` the JS whitespace class.
* The unused `version` parameter of `runCommands` (its `isReleaseVersion`
  local is never read) is not modelled.
-/

namespace Preproc

abbrev Str := List Char

/-- The JS `\s` character class (also the set trimmed by `String.prototype.trim`). -/
def isJsSpace (c : Char) : Bool :=
  c.val == 9 || c.val == 10 || c.val == 11 || c.val == 12 || c.val == 13 ||
  c.val == 32 || c.val == 0xa0 || c.val == 0x1680 ||
  (0x2000 ≤ c.val && c.val ≤ 0x200a) || c.val == 0x2028 || c.val == 0x2029 ||
  c.val == 0x202f || c.val == 0x205f || c.val == 0x3000 || c.val == 0xfeff

/-- JS line terminators (the characters `.` does not match without the `s` flag). -/
def isLineTerm (c : Char) : Bool :=
  c.val == 10 || c.val == 13 || c.val == 0x2028 || c.val == 0x2029

/-- The class `[a-z-]` under the `i` flag: ASCII letters and hyphen. -/
def isNameChar (c : Char) : Bool :=
  (97 ≤ c.val && c.val ≤ 122) || (65 ≤ c.val && c.val ≤ 90) || c.val == 45

/-- ASCII lower-casing, the case folding JS applies for `i`-flag regexes. -/
def asciiLower (c : Char) : Char :=
  if 65 ≤ c.val ∧ c.val ≤ 90 then Char.ofNat (c.toNat + 32) else c

/-- The fragment of JS `String.prototype.toLowerCase` relevant to the slug
pipeline: ASCII `A-Z` and Cyrillic `А-Я`/`Ё` are lowered, everything else kept
(other Unicode mappings produce characters the slug filter removes anyway). -/
def jsToLower (c : Char) : Char :=
  if 65 ≤ c.val ∧ c.val ≤ 90 then Char.ofNat (c.toNat + 32)
  else if 0x410 ≤ c.val ∧ c.val ≤ 0x42f then Char.ofNat (c.toNat + 32)
  else if c.val = 0x401 then Char.ofNat 0x451
  else c

/-- The allow-list `[-0-9a-zа-яё]` under the `i` flag. -/
def allowChar (c : Char) : Bool :=
  c.val == 45 || (48 ≤ c.val && c.val ≤ 57) ||
  (97 ≤ c.val && c.val ≤ 122) || (65 ≤ c.val && c.val ≤ 90) ||
  (0x430 ≤ c.val && c.val ≤ 0x44f) || (0x410 ≤ c.val && c.val ≤ 0x42f) ||
  c.val == 0x451 || c.val == 0x401

def str (s : String) : Str := s.toList

/-- `String.prototype.trim`. -/
def jsTrim (s : Str) : Str :=
  ((s.dropWhile isJsSpace).reverse.dropWhile isJsSpace).reverse

/-- `text.substring(i, j)` for `i ≤ j` (the engine only uses it that way). -/
def extract (s : Str) (i j : Nat) : Str := (s.drop i).take (j - i)

/-- `String.prototype.split(sep)` for a one-character separator. -/
def splitOnChar (sep : Char) : Str → List Str
  | [] => [[]]
  | c :: cs =>
    let r := splitOnChar sep cs
    if c = sep then [] :: r
    else
      match r with
      | h :: t => (c :: h) :: t
      | [] => [[c]]

def joinNl : List Str → Str
  | [] => []
  | [x] => x
  | x :: xs => x ++ '\n' :: joinNl xs

/-- Decimal digits of `n`, little-endian, by structural recursion on a fuel
argument (`fuel = n` always suffices). -/
def natDigitsAux : Nat → Nat → List Nat
  | 0, _ => []
  | f + 1, n => if n = 0 then [] else n % 10 :: natDigitsAux f (n / 10)

def digitChar (d : Nat) : Char := Char.ofNat (48 + d)

/-- JS `Number.prototype.toString` for the naturals the engine stringifies
(the dedup counter, always ≥ 1). -/
def natToChars (n : Nat) : Str := ((natDigitsAux n n).map digitChar).reverse

/-! ## Table-of-Contents Generator (`generateTableOfContents`) -/

/-- `title.match(/^(#+)\s+(.*)$/)`, returning `(nesting.length, name)`.

The regex is anchored; `(#+)` takes the maximal run of `#` (no shorter run can
satisfy the mandatory `\s` that follows), `\s+` takes the maximal whitespace
run, and `(.*)$` then spans the rest iff it contains no line terminator
(`.` cannot match one and `$` only matches at the end of the input).
A shorter `\s+` only prepends whitespace to the remainder and cannot avoid a
line terminator occurring later, so the greedy split is exact.
`none` models `match` returning `null`, on which the source's destructuring
`const [, nesting, name] = ...` throws. -/
def headingOf (title : Str) : Option (Nat × Str) :=
  let hashes := title.takeWhile (· = '#')
  let rest := title.dropWhile (· = '#')
  let ws := rest.takeWhile isJsSpace
  let nm := rest.dropWhile isJsSpace
  if hashes.length = 0 then none
  else if ws.length = 0 then none
  else if nm.any isLineTerm then none
  else some (hashes.length, nm)

/-- `name.trim().toLowerCase().replace(/\s/g, '-').replace(/[^-0-9a-zа-яё]/ig, '')`.
Note `/\s/g` replaces each single whitespace character with one hyphen. -/
def slugOf (nm : Str) : Str :=
  ((((jsTrim nm).map jsToLower).map
    (fun c => if isJsSpace c then '-' else c)).filter allowChar)

/-- The candidate tried with counter value `k`: `id` itself for `k = 0`,
`id + '-' + k` afterwards. -/
def candidate (id : Str) (k : Nat) : Str :=
  if k = 0 then id else id ++ '-' :: natToChars k

/-- The `while (ids.has(dedupId))` loop; structural recursion on fuel.
With `fuel = ids.length + 1` the loop always exits via the `else` branch
(the candidates are pairwise distinct, see `dedupGo_not_mem`), so the
fuel-exhaustion value is never produced. -/
def dedupGo (ids : List Str) (id : Str) : Nat → Nat → Str
  | 0, k => candidate id k
  | f + 1, k => if candidate id k ∈ ids then dedupGo ids id f (k + 1) else candidate id k

def dedupId (ids : List Str) (id : Str) : Str := dedupGo ids id (ids.length + 1) 0

structure TocEntry where
  level : Nat
  name : Str
  id : Str
deriving DecidableEq, Repr

/-- The `for (const title of titles)` loop: builds the entry list, threading
the `ids` set (modelled as the list of registered ids). `none` models the
TypeError thrown when `title.match` returns `null`. -/
def tocPass : List Str → List Str → Option (List TocEntry)
  | [], _ => some []
  | title :: rest, ids =>
    match headingOf title with
    | none => none
    | some (lvl, nm) =>
      -- `did` of the source, written out at both use sites
      match tocPass rest (ids ++ [dedupId ids (slugOf nm)]) with
      | none => none
      | some es => some (⟨lvl, nm, dedupId ids (slugOf nm)⟩ :: es)

/-- `mdText.split('\n').map(line => line.trim()).filter(line => line.startsWith('#'))`. -/
def titlesOf (mdText : Str) : List Str :=
  ((splitOnChar '\n' mdText).map jsTrim).filter
    (fun l => match l with | c :: _ => c = '#' | [] => false)

def tocEntriesOf (mdText : Str) : Option (List TocEntry) := tocPass (titlesOf mdText) []

/-- `Math.min(...tocEntries.map(entry => entry.level))`. On the empty list the
JS value is `Infinity`; no entry exists to subtract it from, so the value
returned here for `[]` is irrelevant. -/
def minLevelOf : List TocEntry → Nat
  | [] => 0
  | e :: es => es.foldl (fun a b => min a b.level) e.level

/-- One rendered line: `` `${padding}${prefix} [${entry.name}](#${entry.id})` ``
after `entry.level -= minLevel`. -/
def renderEntry (minL : Nat) (e : TocEntry) : Str :=
  let lv := e.level - minL
  (List.replicate lv (str "  ")).flatten ++
    (if lv % 2 = 0 then '-' else '*') :: str " [" ++ e.name ++ str "](#" ++ e.id ++ str ")"

/-- `generateTableOfContents`; `none` is the TypeError on a trimmed line that
starts with `#` but does not match `/^(#+)\s+(.*)$/`. -/
def generateTableOfContents (mdText : Str) : Option Str :=
  match tocEntriesOf mdText with
  | none => none
  | some es =>
    some ('\n' :: joinNl (es.map (renderEntry (minLevelOf es))) ++ ['\n'])

/-! ## Command Scanner

Hand-compilation of
`commandStartRegex = /<!--\s*gen:([a-z-]+)(\(.*\))?\s*-->/ig` and
`commandEndRegex = /<!--\s*gen:stop\s*-->/ig` with their `exec`/`lastIndex`
protocol. -/

/-- Case-insensitive literal match (ASCII folding, the canonicalization JS
applies to `i`-flag patterns without the `u` flag); returns the rest. -/
def dropLitCI : Str → Str → Option Str
  | [], s => some s
  | _ :: _, [] => none
  | l :: ls, c :: cs => if asciiLower c = asciiLower l then dropLitCI ls cs else none

/-- `\s*` followed by the literal `-->`. The star is deterministic here:
`-` is not in `\s`, so the maximal whitespace run is the only option. -/
def arrowTail (s : Str) : Option Str := dropLitCI (str "-->") (s.dropWhile isJsSpace)

/-- Backtracking for `\(.*\)\s*-->` after the opening parenthesis was
consumed: `.*` is greedy, so the split point `p` (length matched by `.*`)
is tried from `hi` downwards; `.` cannot cross a line terminator, so the
caller starts at the length of the current line. Returns
`(interior, rest)` where `interior` is what `.*` matched. -/
def parenAttempt (r1 : Str) (p : Nat) : Option (Str × Str) :=
  match r1.drop p with
  | ')' :: r2 => (arrowTail r2).map (fun rest => (r1.take p, rest))
  | _ => none

def parenScan (r1 : Str) : Nat → Option (Str × Str)
  | 0 => parenAttempt r1 0
  | p + 1 =>
    match parenAttempt r1 (p + 1) with
    | some x => some x
    | none => parenScan r1 p

/-- The continuation `(\(.*\))?\s*-->` after the command name: the optional
group is tried first (greedy `?`), then the group-absent branch.
Returns `(argsGroupInterior?, rest)`. -/
def matchTail (rem : Str) : Option (Option Str × Str) :=
  match
    (match rem with
     | '(' :: r1 =>
       (parenScan r1 (r1.takeWhile (fun c => !isLineTerm c)).length).map
         (fun (interior, rest) => (some interior, rest))
     | _ => none)
  with
  | some x => some x
  | none => (arrowTail rem).map (fun rest => ((none : Option Str), rest))

/-- Backtracking for `[a-z-]+` given the maximal run `r` of name characters:
the greedy `+` tries the longest prefix of `r` as the capture first, pushing
the remainder of `r` back in front of `s4` for the continuation. -/
def nameSplit (r s4 : Str) : Nat → Option (Str × Option Str × Str)
  | 0 => none
  | k + 1 =>
    match matchTail (r.drop (k + 1) ++ s4) with
    | some (args, rest) => some (r.take (k + 1), args, rest)
    | none => nameSplit r s4 k

/-- One attempt of `commandStartRegex` anchored at the head of `s`.
Returns `(consumedLength, name, argsGroupInterior?)`. -/
def matchOpenAt (s : Str) : Option (Nat × Str × Option Str) :=
  match dropLitCI (str "<!--") s with
  | none => none
  | some s1 =>
    match dropLitCI (str "gen:") (s1.dropWhile isJsSpace) with
    | none => none
    | some s3 =>
      let r := s3.takeWhile isNameChar
      match nameSplit r (s3.dropWhile isNameChar) r.length with
      | none => none
      | some (nm, args, rest) => some (s.length - rest.length, nm, args)

/-- One attempt of `commandEndRegex` anchored at the head of `s`.
Returns the consumed length. Both `\s*` are deterministic (`g` and `-` are
not whitespace). -/
def matchCloseAt (s : Str) : Option Nat :=
  match dropLitCI (str "<!--") s with
  | none => none
  | some s1 =>
    match dropLitCI (str "gen:stop") (s1.dropWhile isJsSpace) with
    | none => none
    | some s3 =>
      match dropLitCI (str "-->") (s3.dropWhile isJsSpace) with
      | none => none
      | some s5 => some (s.length - s5.length)

/-- Leftmost match: the position `j` (relative to `s`) of the first suffix on
which the anchored matcher succeeds, with the matcher's result. This is
`regex.exec` with `regex.lastIndex` positioned at `s`'s start. -/
def findFrom (m : Str → Option α) : Str → Option (Nat × α)
  | [] => (m []).map (fun a => (0, a))
  | s@(_ :: tail) =>
    match m s with
    | some a => some (0, a)
    | none => (findFrom m tail).map (fun (j, a) => (j + 1, a))

/-- `start[2].substring(1, start[2].length - 1).split(',').map(arg => arg.trim())`
when the parenthesized group is present, `[]` otherwise. -/
def argsOf : Option Str → List Str
  | none => []
  | some interior => (splitOnChar ',' interior).map jsTrim

/-! ## Engine state and messages -/

/-- Modelled from the spec: the `./Message` collaborator (not under `src/`)
is a diagnostic tagged `error` or `warning` carrying a human-readable
string; the engine accumulates these as its only output signal. -/
inductive Msg where
  | error : Str → Msg
  | warning : Str → Msg
deriving DecidableEq, Repr

/-- A single quote character (avoids apostrophes in string literals). -/
def sq : Char := Char.ofNat 39

/-- `` `Failed to find 'gen:stop' for command ${start[0]}` ``. -/
def failedStopText (matched : Str) : Str :=
  str "Failed to find " ++ sq :: str "gen:stop" ++ sq :: str " for command " ++ matched

/-- `` `Unknown command 'gen:${command.name}'` ``. -/
def unknownText (nm : Str) : Str :=
  (str "Unknown command " ++ [sq] ++ str "gen:") ++ (nm ++ [sq])

/-- `` `GEN: updated ${source.projectPath()}` ``. -/
def updatedText (p : Str) : Str := str "GEN: updated " ++ p

/-- The document-source collaborator: `projectPath()` and the current text
(`text()` reads it, `setText` replaces it and reports whether it changed). -/
structure Source where
  projectPath : Str
  text : Str
deriving DecidableEq, Repr

/-- The command record pushed by the scan loop. `from_`/`to` are the JS
`from`/`to` offsets (`from` is a Lean keyword); `srcIdx` is the index of the
owning source in the run's source list (the JS record holds the object
reference). -/
structure Cmd where
  name : Str
  args : List Str
  from_ : Nat
  to_ : Nat
  originalText : Str
  srcIdx : Nat
deriving DecidableEq, Repr

/-- The `while (start = commandStartRegex.exec(text))` loop of `runCommands`.
`i` is `commandStartRegex.lastIndex`. Structural recursion on fuel;
every iteration moves `i` past a nonempty close-marker match (≥ 15
characters), so `fuel = t.length + 1` never runs out before `i` leaves the
text and the `.ok []` fuel-exhaustion value is never produced. -/
def scanLoop (srcIdx : Nat) (t : Str) : Nat → Nat → Except Str (List Cmd)
  | 0, _ => .ok []
  | fuel + 1, i =>
    match findFrom matchOpenAt (t.drop i) with
    | none => .ok []
    | some (j, len, nm, rawArgs) =>
      -- `i + j + len` is `commandStartRegex.lastIndex` (the JS `from`),
      -- `i + j + len + j2` is `end.index` (the JS `to`).
      match findFrom matchCloseAt (t.drop (i + j + len)) with
      | none => .error (failedStopText (extract t (i + j) (i + j + len)))
      | some (j2, cLen) =>
        match scanLoop srcIdx t fuel (i + j + len + j2 + cLen) with
        | .error e => .error e
        | .ok rest =>
          .ok ({ name := nm, args := argsOf rawArgs, from_ := i + j + len,
                 to_ := i + j + len + j2,
                 originalText := extract t (i + j + len) (i + j + len + j2),
                 srcIdx := srcIdx } :: rest)

def scanDoc (srcIdx : Nat) (t : Str) : Except Str (List Cmd) :=
  scanLoop srcIdx t (t.length + 1) 0

/-- The scanning phase over all sources. A structural failure returns the
error immediately: commands already found (in this or earlier documents) are
discarded and later documents are not scanned (`return messages`). -/
def scanAll : Nat → List Source → Except Str (List Cmd)
  | _, [] => .ok []
  | idx, s :: rest =>
    match scanDoc idx s.text with
    | .error e => .error e
    | .ok cs =>
      match scanAll (idx + 1) rest with
      | .error e => .error e
      | .ok cs' => .ok (cs ++ cs')

/-- `commands.sort((a, b) => b.from - a.from)`: stable sort by `from`
descending (insertion sort; ties keep their original relative order, as
ECMAScript `Array.prototype.sort` guarantees). -/
def insertDesc (c : Cmd) : List Cmd → List Cmd
  | [] => [c]
  | d :: ds => if d.from_ ≤ c.from_ then c :: d :: ds else d :: insertDesc c ds

def sortDesc : List Cmd → List Cmd
  | [] => []
  | c :: cs => insertDesc c (sortDesc cs)

/-- The `insertjs` replacement: heading line plus fenced code block with the
file's trimmed contents. -/
def insertion (a contents : Str) : Str :=
  str "\nFile: [" ++ a ++ str "](" ++ a ++ str ")" ++
    str "\n```js\n" ++ jsTrim contents ++ str "\n```\n"

/-- The per-command `newText` computation inside the apply loop.
`none` is an uncaught exception (missing `args[0]` makes `path.resolve`
throw; an absent file makes `fs.readFileSync` throw; a malformed heading
makes `generateTableOfContents` throw). `some none` is JS `newText === null`
(unknown command). `curText` is `command.source.text()` at apply time. -/
def execCmd (rf : Str → Option Str) (c : Cmd) (curText : Str) : Option (Option Str) :=
  if c.name = str "insertjs" then
    match c.args with
    | [] => none
    | a :: _ =>
      match rf a with
      | none => none
      | some contents => some (some (insertion a contents))
  else if c.name = str "toc" then
    match generateTableOfContents (curText.drop c.to_) with
    | none => none
    | some r => some (some r)
  else some none

/-- Mutable run state of the apply loop: the sources (indexed), the message
list, and `changedSources` as the list of source indices in insertion order. -/
structure St where
  docs : List Source
  msgs : List Msg
  changed : List Nat
deriving Repr

/-- The `for (const command of commands)` loop over the sorted commands,
including `applyCommand`'s splice
`text.substring(0, from) + editText + text.substring(to)` and the
`changedSources.add` bookkeeping. `none` propagates an exception. -/
def applyLoop (rf : Str → Option Str) : List Cmd → St → Option St
  | [], st => some st
  | c :: rest, st =>
    match st.docs.get? c.srcIdx with
    | none => none
    | some d =>
      match execCmd rf c d.text with
      | none => none
      | some none =>
        applyLoop rf rest { st with msgs := st.msgs ++ [.error (unknownText c.name)] }
      | some (some nt) =>
        -- `newText` of `applyCommand`, written out at each use site.
        applyLoop rf rest
          { docs := st.docs.set c.srcIdx
              { d with text := d.text.take c.from_ ++ nt ++ d.text.drop c.to_ },
            msgs := st.msgs,
            changed :=
              if d.text.take c.from_ ++ nt ++ d.text.drop c.to_ ≠ d.text ∧
                  c.srcIdx ∉ st.changed
              then st.changed ++ [c.srcIdx] else st.changed }

/-- `module.exports.runCommands`: scan all sources, sort the commands by
`from` descending, apply them, then emit one `updated` warning per changed
source. The result is the message list together with the final sources;
`none` is an exception escaping the whole call. -/
def runCommands (sources : List Source) (rf : Str → Option Str) :
    Option (List Msg × List Source) :=
  match scanAll 0 sources with
  | .error e => some ([.error e], sources)
  | .ok cmds =>
    match applyLoop rf (sortDesc cmds) ⟨sources, [], []⟩ with
    | none => none
    | some st =>
      some (st.msgs ++ st.changed.map
        (fun i => .warning (updatedText (((st.docs.get? i).map Source.projectPath).getD []))),
        st.docs)

/-! ## Derived forms used by the verification -/

/-- The diagnostic an unknown-name command produces, `none` for the two
known commands. -/
def unknownMsgOf (c : Cmd) : Option Msg :=
  if c.name = str "insertjs" then none
  else if c.name = str "toc" then none
  else some (.error (unknownText c.name))

/-- The apply loop restricted to one document's text: same per-command step
as `applyLoop`, returning the final text, the emitted messages, and whether
any splice changed the text. -/
def applyText (rf : Str → Option Str) : List Cmd → Str → Option (Str × List Msg × Bool)
  | [], t => some (t, [], false)
  | c :: rest, t =>
    match execCmd rf c t with
    | none => none
    | some none =>
      (applyText rf rest t).map
        (fun (t', ms, f) => (t', Msg.error (unknownText c.name) :: ms, f))
    | some (some nt) =>
      (applyText rf rest (t.take c.from_ ++ nt ++ t.drop c.to_)).map
        (fun (t', ms, f) =>
          (t', ms, decide (t.take c.from_ ++ nt ++ t.drop c.to_ ≠ t) || f))

/-- The replacement a command contributes to the final text, given the
already-rebuilt tail of the document from its `to` offset on (which is what
a `toc` command reads): the computed text for the two known commands, the
untouched original region for an unknown one, `none` for an exception. -/
def execR (rf : Str → Option Str) (t : Str) (c : Cmd) (tl : Str) : Option Str :=
  if c.name = str "insertjs" then
    match c.args with
    | [] => none
    | a :: _ => (rf a).map (insertion a)
  else if c.name = str "toc" then generateTableOfContents tl
  else some (extract t c.from_ c.to_)

/-- Rebuilds the document text from offset `i` on, command by command in
ascending position: the segment of the original text up to the command's
`from`, its replacement, then recursively the rest. Also returns the list of
replacements. `none` propagates an exception of a command. -/
def reconFrom (rf : Str → Option Str) (t : Str) : Nat → List Cmd → Option (Str × List Str)
  | i, [] => some (t.drop i, [])
  | i, c :: rest =>
    match reconFrom rf t c.to_ rest with
    | none => none
    | some (tl, rs) =>
      match execR rf t c tl with
      | none => none
      | some r => some (extract t i c.from_ ++ r ++ tl, r :: rs)

/-- The shape of a fully rebuilt document: original segments outside the
`[from,to)` regions, the paired replacement inside each. -/
def reconP (t : Str) : Nat → List (Cmd × Str) → Str
  | i, [] => t.drop i
  | i, (c, r) :: rest => extract t i c.from_ ++ r ++ reconP t c.to_ rest

/-- Well-formedness of a scanned command list for a text of length `n`:
every interval satisfies `lo ≤ from ≤ to ≤ n` and the next command starts
strictly after `to`. -/
def ChainOK (n : Nat) : Nat → List Cmd → Prop
  | _, [] => True
  | lo, c :: rest => lo ≤ c.from_ ∧ c.from_ ≤ c.to_ ∧ c.to_ ≤ n ∧ ChainOK n (c.to_ + 1) rest

/-- The slug transformation as claim C6 words it: whitespace **runs**
collapse to a single hyphen (the flag records whether the previous character
was whitespace). -/
def collapseRuns : Bool → Str → Str
  | _, [] => []
  | prev, c :: cs =>
    if isJsSpace c then
      (if prev then collapseRuns true cs else '-' :: collapseRuns true cs)
    else c :: collapseRuns false cs

/-- Anchor id derivation following the claim's words with runs collapsed. -/
def specSlugRuns (nm : Str) : Str :=
  (collapseRuns false ((jsTrim nm).map jsToLower)).filter allowChar

/-- Anchor id derivation following the amended claim: the trimmed name
lowercased, **each** whitespace character replaced by one hyphen, and every
character outside the allow-list removed. -/
def specSlugEach (nm : Str) : Str :=
  (((jsTrim nm).map jsToLower).map (fun c => if isJsSpace c then '-' else c)).filter
    allowChar

/-! ## Concrete run fixtures -/

/-- A file reader with no files: every read throws. -/
def rfNone : Str → Option Str := fun _ => none

def c1Bad : Source := ⟨str "a.md", str "<!--gen:toc-->x"⟩

def c1Good : Source := ⟨str "b.md", str "<!--gen:toc-->y<!--gen:stop-->z\n# H"⟩

def c1GoodOut : Source := ⟨str "b.md", str "<!--gen:toc-->\n- [H](#h)\n<!--gen:stop-->z\n# H"⟩

def c2Doc : Source := ⟨str "c.md", str "<!--gen:insertjs(./x.js)-->y<!--gen:stop-->"⟩

def c2Cmd : Cmd :=
  { name := str "insertjs", args := [str "./x.js"], from_ := 27, to_ := 28,
    originalText := str "y", srcIdx := 0 }

/-- The included file of the second-run fixture: its contents contain a
literal closing marker. -/
def c5File : Str := str "x<!--gen:stop-->y"

def c5rf : Str → Option Str := fun a => if a = str "g" then some c5File else none

def c5doc0 : Source :=
  ⟨str "d.md", str "<!--gen:insertjs(g)-->o<!--gen:stop--><!--gen:toc-->b<!--gen:stop-->"⟩

/-- The output of the first (error-free) run on `c5doc0`. -/
def c5doc1 : Source :=
  ⟨str "d.md",
   str "<!--gen:insertjs(g)-->\nFile: [g](g)\n```js\nx<!--gen:stop-->y\n```\n<!--gen:stop--><!--gen:toc-->\n\n<!--gen:stop-->"⟩

/-- The output of the second run on `c5doc1`: the scan pairs the `insertjs`
opening marker with the `gen:stop` inside the inserted code block, so the
splice duplicates the block's tail and the text changes again. -/
def c5doc2 : Source :=
  ⟨str "d.md",
   str "<!--gen:insertjs(g)-->\nFile: [g](g)\n```js\nx<!--gen:stop-->y\n```\n<!--gen:stop-->y\n```\n<!--gen:stop--><!--gen:toc-->\n\n<!--gen:stop-->"⟩

/-! ## C1: structural error handling -/

/-- C1 counterexample: in a run whose first document has an opening marker
with no closing marker, the second document is NOT processed — the run
returns just the structural-error message with every document unchanged —
although the second document on its own is processable (its `toc` command
rewrites it). This refutes "still finishes scanning and applying commands
in every other document of the same run". -/
theorem C1_counterexample :
    runCommands [c1Bad, c1Good] rfNone =
      some ([.error (failedStopText (str "<!--gen:toc-->"))], [c1Bad, c1Good]) ∧
    runCommands [c1Good] rfNone =
      some ([.warning (updatedText (str "b.md"))], [c1GoodOut]) ∧
    c1GoodOut.text ≠ c1Good.text := by
  refine ⟨by decide, by decide, by decide⟩

/-- C1 amended: if scanning any document fails structurally, the engine
reports the structural-error diagnostic and aborts the whole run — the
commands already found are discarded and **no** document (neither the
failing one nor any other) is modified. -/
theorem C1_aborts_run (docs : List Source) (rf : Str → Option Str) (e : Str)
    (h : scanAll 0 docs = .error e) :
    runCommands docs rf = some ([.error e], docs) := by
  unfold runCommands
  rw [h]

theorem C1_aborts_run_witness :
    runCommands [c1Bad, c1Good] rfNone =
      some ([.error (failedStopText (str "<!--gen:toc-->"))], [c1Bad, c1Good]) :=
  C1_aborts_run [c1Bad, c1Good] rfNone (failedStopText (str "<!--gen:toc-->")) rfl

/-! ## C2: missing `insertjs` file -/

/-- C2 counterexample: an `insertjs` command whose file is absent does not
produce a missing-file diagnostic with the region left untouched — the
uncaught `fs.readFileSync` exception aborts the whole run (`none`), so no
diagnostic list is returned at all. -/
theorem C2_counterexample : runCommands [c2Doc] rfNone = none := by decide

/-- C2 amended: when the apply loop reaches an `insertjs` command whose
`args[0]` is missing or whose file the reader cannot read, the exception
propagates immediately: the loop returns no state, no diagnostic is
recorded, and none of the remaining commands are processed. -/
theorem C2_read_throws (rf : Str → Option Str) (st : St) (c : Cmd) (rest : List Cmd)
    (hname : c.name = str "insertjs")
    (hmiss : c.args = [] ∨ ∃ a as, c.args = a :: as ∧ rf a = none) :
    applyLoop rf (c :: rest) st = none := by
  have hexec : ∀ txt, execCmd rf c txt = none := by
    intro txt
    rcases hmiss with h0 | ⟨a, as, ha, hrf⟩
    · simp [execCmd, hname, h0]
    · simp [execCmd, hname, ha, hrf]
  unfold applyLoop
  cases hd : st.docs.get? c.srcIdx with
  | none => rfl
  | some d => simp [hexec]

theorem C2_read_throws_witness : applyLoop rfNone [c2Cmd] ⟨[c2Doc], [], []⟩ = none :=
  C2_read_throws rfNone ⟨[c2Doc], [], []⟩ c2Cmd [] rfl
    (Or.inr ⟨str "./x.js", [], rfl, rfl⟩)

/-! ## C3: totality of the engine -/

/-- C3: the engine is **not** total. On a document whose `toc` scope contains
the trimmed line `#bad` (a `#` run with no following whitespace), the line
passes the `startsWith('#')` filter but `title.match(/^(#+)\s+(.*)$/)`
returns `null`, the destructuring throws, and the exception escapes
`runCommands` — no diagnostic list is produced. -/
theorem C3_toc_throws :
    generateTableOfContents (str "#bad") = none ∧
    runCommands [⟨str "doc.md", str "<!--gen:toc-->x<!--gen:stop-->\n#bad"⟩] rfNone
      = none := by
  refine ⟨by decide, by decide⟩

/-! ## C5: second run on first-run output -/

/-- C5: a second engine run over an error-free first run's output can change
the text again and emit an `updated` warning. The first run on `c5doc0`
(whose `insertjs` file contains a literal closing marker) is error-free and
produces `c5doc1`; the second run pairs the opening marker with the marker
inside the inserted block, splices again, changes the text, and emits both
an unknown-command error and an `updated` warning. -/
theorem C5_second_run_changes :
    runCommands [c5doc0] c5rf = some ([.warning (updatedText (str "d.md"))], [c5doc1]) ∧
    runCommands [c5doc1] c5rf =
      some ([.error (unknownText (str "stop")), .warning (updatedText (str "d.md"))],
        [c5doc2]) ∧
    c5doc2.text ≠ c5doc1.text := by
  refine ⟨by decide, by decide, by decide⟩

/-! ## C6: anchor id derivation -/

/-- C6 counterexample: for the heading name `a  b` (two spaces) the code
derives the id `a--b` — each whitespace character becomes its own hyphen —
while the claim's run-collapsing derivation gives `a-b`. -/
theorem C6_counterexample :
    tocEntriesOf (str "# a  b") = some [⟨1, str "a  b", str "a--b"⟩] ∧
    slugOf (str "a  b") = str "a--b" ∧
    specSlugRuns (str "a  b") = str "a-b" ∧
    str "a--b" ≠ str "a-b" := by
  refine ⟨by decide, by decide, by decide, by decide⟩

/-- C6 amended: for every heading name, the derived anchor id equals the
trimmed name lowercased, with **each** whitespace character replaced by a
hyphen, and every remaining character that is not a hyphen, a digit, an
ASCII letter, or a Cyrillic letter of `а-я`/`А-Я`/`ё`/`Ё` removed. -/
theorem C6_slug_spec (nm : Str) : slugOf nm = specSlugEach nm := rfl

/-! ## Scanner invariants -/

theorem dropLitCI_length {lit s s' : Str} (h : dropLitCI lit s = some s') :
    s'.length + lit.length = s.length := by
  induction lit generalizing s with
  | nil => cases s <;> simp_all [dropLitCI]
  | cons l ls ih =>
    cases s with
    | nil => simp [dropLitCI] at h
    | cons c cs =>
      unfold dropLitCI at h
      by_cases hc : asciiLower c = asciiLower l
      · rw [if_pos hc] at h
        have := ih h
        simp [List.length_cons]
        omega
      · rw [if_neg hc] at h
        exact absurd h (by simp)

theorem matchCloseAt_bounds {s : Str} {n : Nat} (h : matchCloseAt s = some n) :
    1 ≤ n ∧ n ≤ s.length := by
  unfold matchCloseAt at h
  split at h
  · exact absurd h (by simp)
  next s1 h1 =>
    split at h
    · exact absurd h (by simp)
    next s3 h3 =>
      split at h
      · exact absurd h (by simp)
      next s5 h5 =>
        have e1 := dropLitCI_length h1
        have e3 := dropLitCI_length h3
        have e5 := dropLitCI_length h5
        have d1 : (s1.dropWhile isJsSpace).length ≤ s1.length :=
          (List.dropWhile_sublist _).length_le
        have d3 : (s3.dropWhile isJsSpace).length ≤ s3.length :=
          (List.dropWhile_sublist _).length_le
        have hn : s.length - s5.length = n := by
          simpa using h
        have hlit1 : (str "<!--").length = 4 := by decide
        have hlit3 : (str "gen:stop").length = 8 := by decide
        have hlit5 : (str "-->").length = 3 := by decide
        omega

theorem findFrom_spec {α : Type} {m : Str → Option α} {s : Str} {j : Nat} {a : α}
    (h : findFrom m s = some (j, a)) : j ≤ s.length ∧ m (s.drop j) = some a := by
  induction s generalizing j with
  | nil =>
    unfold findFrom at h
    cases hm : m [] with
    | none => rw [hm] at h; exact absurd h (by simp)
    | some a0 =>
      rw [hm] at h
      simp only [Option.map_some', Option.some.injEq, Prod.mk.injEq] at h
      obtain ⟨hj, ha⟩ := h
      subst hj
      subst ha
      exact ⟨Nat.le_refl 0, hm⟩
  | cons c cs ih =>
    unfold findFrom at h
    cases hm : m (c :: cs) with
    | some a0 =>
      rw [hm] at h
      simp only [Option.some.injEq, Prod.mk.injEq] at h
      obtain ⟨hj, ha⟩ := h
      subst hj
      subst ha
      exact ⟨Nat.zero_le _, hm⟩
    | none =>
      rw [hm] at h
      cases hr : findFrom m cs with
      | none => rw [hr] at h; exact absurd h (by simp)
      | some p =>
        obtain ⟨j', a'⟩ := p
        rw [hr] at h
        simp only [Option.map_some', Option.some.injEq, Prod.mk.injEq] at h
        obtain ⟨hj, ha⟩ := h
        subst ha
        subst hj
        obtain ⟨hle, hm'⟩ := ih hr
        exact ⟨by simpa using Nat.succ_le_succ hle, by simpa using hm'⟩

theorem ChainOK_mono {n lo lo' : Nat} {l : List Cmd} (h : ChainOK n lo l)
    (hle : lo' ≤ lo) : ChainOK n lo' l := by
  cases l with
  | nil => trivial
  | cons c rest =>
    obtain ⟨h1, h2⟩ := h
    exact ⟨Nat.le_trans hle h1, h2⟩

theorem ChainOK_le_from {n lo : Nat} {l : List Cmd} (h : ChainOK n lo l) :
    ∀ c ∈ l, lo ≤ c.from_ := by
  induction l generalizing lo with
  | nil => intro c hc; cases hc
  | cons c rest ih =>
    obtain ⟨h1, h2, h3, h4⟩ := h
    intro d hd
    cases hd with
    | head => exact h1
    | tail _ hm => exact Nat.le_trans (by omega) (ih h4 d hm)

theorem ChainOK_bounds {n lo : Nat} {l : List Cmd} (h : ChainOK n lo l) :
    ∀ c ∈ l, c.from_ ≤ c.to_ ∧ c.to_ ≤ n := by
  induction l generalizing lo with
  | nil => intro c hc; cases hc
  | cons c rest ih =>
    obtain ⟨h1, h2, h3, h4⟩ := h
    intro d hd
    cases hd with
    | head => exact ⟨h2, h3⟩
    | tail _ hm => exact ih h4 d hm

theorem ChainOK_pairwise {n lo : Nat} {l : List Cmd} (h : ChainOK n lo l) :
    List.Pairwise (fun a b => a.to_ ≤ b.from_) l := by
  induction l generalizing lo with
  | nil => exact List.Pairwise.nil
  | cons c rest ih =>
    obtain ⟨h1, h2, h3, h4⟩ := h
    refine List.Pairwise.cons ?_ (ih h4)
    intro b hb
    have := ChainOK_le_from h4 b hb
    omega

theorem scanLoop_chain {idx : Nat} {t : Str} :
    ∀ {fuel i : Nat} {cmds : List Cmd},
      scanLoop idx t fuel i = .ok cmds → ChainOK t.length i cmds := by
  intro fuel
  induction fuel with
  | zero =>
    intro i cmds h
    unfold scanLoop at h
    simp only [Except.ok.injEq] at h
    subst h
    trivial
  | succ f ih =>
    intro i cmds h
    unfold scanLoop at h
    split at h
    · simp only [Except.ok.injEq] at h
      subst h
      trivial
    next j len nm rawArgs ho =>
      split at h
      · exact absurd h (by simp)
      next j2 cLen hc =>
        split at h
        · exact absurd h (by simp)
        next rest hr =>
          simp only [Except.ok.injEq] at h
          subst h
          obtain ⟨hj2, hm⟩ := findFrom_spec hc
          rw [List.drop_drop] at hm
          obtain ⟨hc1, hc2⟩ := matchCloseAt_bounds hm
          rw [List.length_drop] at hc2
          rw [List.length_drop] at hj2
          have hrest := ih hr
          refine ⟨?_, ?_, ?_, ?_⟩
          · show i ≤ i + j + len
            omega
          · show i + j + len ≤ i + j + len + j2
            omega
          · show i + j + len + j2 ≤ t.length
            omega
          · show ChainOK t.length (i + j + len + j2 + 1) rest
            exact ChainOK_mono hrest (by omega)

theorem scanDoc_chain {idx : Nat} {t : Str} {cmds : List Cmd}
    (h : scanDoc idx t = .ok cmds) : ChainOK t.length 0 cmds :=
  scanLoop_chain h

theorem scanLoop_srcIdx {idx : Nat} {t : Str} :
    ∀ {fuel i : Nat} {cmds : List Cmd},
      scanLoop idx t fuel i = .ok cmds → ∀ c ∈ cmds, c.srcIdx = idx := by
  intro fuel
  induction fuel with
  | zero =>
    intro i cmds h
    unfold scanLoop at h
    simp only [Except.ok.injEq] at h
    subst h
    intro c hc
    cases hc
  | succ f ih =>
    intro i cmds h
    unfold scanLoop at h
    split at h
    · simp only [Except.ok.injEq] at h
      subst h
      intro c hc
      cases hc
    next j len nm rawArgs ho =>
      split at h
      · exact absurd h (by simp)
      next j2 cLen hc =>
        split at h
        · exact absurd h (by simp)
        next rest hr =>
          simp only [Except.ok.injEq] at h
          subst h
          intro c hcm
          cases hcm with
          | head => rfl
          | tail _ hm => exact ih hr c hm

/-- C8: the commands of one scan pass are well-formed intervals
(`from ≤ to`), pairwise disjoint, in increasing document position. -/
theorem C8_scan_intervals (idx : Nat) (t : Str) (cmds : List Cmd)
    (h : scanDoc idx t = .ok cmds) :
    (∀ c ∈ cmds, c.from_ ≤ c.to_) ∧
    List.Pairwise (fun a b => a.to_ ≤ b.from_) cmds := by
  have hchain := scanDoc_chain h
  exact ⟨fun c hc => (ChainOK_bounds hchain c hc).1, ChainOK_pairwise hchain⟩

/-! ## Splice composition -/

theorem take_append_extract (t : Str) {a b : Nat} (h : a ≤ b) :
    t.take a ++ extract t a b = t.take b := by
  conv_rhs => rw [show b = a + (b - a) by omega]
  rw [List.take_add]
  rfl

theorem take_take_append {t u : Str} {a m : Nat} (ham : a ≤ m) (hm : m ≤ t.length) :
    (t.take m ++ u).take a = t.take a := by
  rw [List.take_append_eq_append_take, List.take_take, List.length_take]
  have h1 : min a m = a := by omega
  have h2 : a - min m t.length = 0 := by omega
  rw [h1, h2, List.take_zero, List.append_nil]

theorem drop_take_append {t u : Str} {m : Nat} (hm : m ≤ t.length) :
    (t.take m ++ u).drop m = u :=
  List.drop_left' (by rw [List.length_take]; omega)

theorem applyText_append (rf : Str → Option Str) (xs ys : List Cmd) (t : Str) :
    applyText rf (xs ++ ys) t =
      match applyText rf xs t with
      | none => none
      | some (t1, ms, f) =>
        (applyText rf ys t1).map (fun (t', ms', f') => (t', ms ++ ms', f || f')) := by
  induction xs generalizing t with
  | nil =>
    simp only [List.nil_append, applyText]
    cases h : applyText rf ys t with
    | none => rfl
    | some p =>
      obtain ⟨t', ms', f'⟩ := p
      simp
  | cons c rest ih =>
    simp only [List.cons_append, applyText]
    cases hex : execCmd rf c t with
    | none => rfl
    | some o =>
      cases o with
      | none =>
        dsimp only
        rw [show List.append rest ys = rest ++ ys from rfl, ih t]
        cases h1 : applyText rf rest t with
        | none => rfl
        | some p =>
          obtain ⟨t1, ms, f⟩ := p
          simp only [Option.map_some']
          cases h2 : applyText rf ys t1 with
          | none => rfl
          | some q =>
            obtain ⟨t', ms', f'⟩ := q
            simp
      | some nt =>
        dsimp only
        rw [show List.append rest ys = rest ++ ys from rfl,
          ih (t.take c.from_ ++ nt ++ t.drop c.to_)]
        cases h1 : applyText rf rest (t.take c.from_ ++ nt ++ t.drop c.to_) with
        | none => rfl
        | some p =>
          obtain ⟨t1, ms, f⟩ := p
          simp only [Option.map_some']
          cases h2 : applyText rf ys t1 with
          | none => rfl
          | some q =>
            obtain ⟨t', ms', f'⟩ := q
            simp [Bool.or_assoc]

theorem execCmd_known_eq (rf : Str → Option Str) (c : Cmd) (t t1 tl : Str)
    (hknown : c.name = str "insertjs" ∨ c.name = str "toc")
    (hdrop : t1.drop c.to_ = tl) :
    execCmd rf c t1 = (execR rf t c tl).map some := by
  cases hknown with
  | inl hins =>
    unfold execCmd execR
    rw [hins]
    rw [if_pos rfl, if_pos rfl]
    cases c.args with
    | nil => rfl
    | cons a as =>
      dsimp only
      cases rf a with
      | none => rfl
      | some f => rfl
  | inr htoc =>
    have hins : ¬c.name = str "insertjs" := by
      rw [htoc]; decide
    unfold execCmd execR
    rw [hdrop, if_neg hins, if_neg hins, if_pos htoc, if_pos htoc]
    cases generateTableOfContents tl with
    | none => rfl
    | some r => rfl

theorem execCmd_unknown (rf : Str → Option Str) (c : Cmd) (t t1 tl : Str)
    (hins : ¬c.name = str "insertjs") (htoc : ¬c.name = str "toc") :
    execCmd rf c t1 = some none ∧ execR rf t c tl = some (extract t c.from_ c.to_) := by
  constructor
  · unfold execCmd
    rw [if_neg hins, if_neg htoc]
  · unfold execR
    rw [if_neg hins, if_neg htoc]

/-- Master lemma: applying the commands in reverse (descending `from`) order
to the text rebuilds exactly the `reconFrom` decomposition — original
segments outside the regions, per-command replacements inside — and emits
the unknown-command diagnostics in processing order. -/
theorem applyText_reverse (rf : Str → Option Str) (t : Str) :
    ∀ (l : List Cmd) (lo : Nat), ChainOK t.length lo l →
      (applyText rf l.reverse t).map (fun (t', ms, _) => (t', ms)) =
        (reconFrom rf t lo l).map
          (fun (tl, _) => (t.take lo ++ tl, (l.filterMap unknownMsgOf).reverse)) := by
  intro l
  induction l with
  | nil =>
    intro lo _
    simp [applyText, reconFrom, List.take_append_drop]
  | cons c rest ih =>
    intro lo hch
    obtain ⟨hlo, hft, htn, hrest⟩ := hch
    have ihc := ih c.to_ (ChainOK_mono hrest (Nat.le_succ _))
    rw [List.reverse_cons, applyText_append]
    cases hrec : reconFrom rf t c.to_ rest with
    | none =>
      rw [hrec] at ihc
      simp only [Option.map_none'] at ihc
      have happ : applyText rf rest.reverse t = none := by
        cases h : applyText rf rest.reverse t with
        | none => rfl
        | some p => rw [h] at ihc; obtain ⟨a, b, cc⟩ := p; simp at ihc
      rw [happ]
      simp [reconFrom, hrec]
    | some p =>
      obtain ⟨tl, reps⟩ := p
      rw [hrec] at ihc
      cases happ : applyText rf rest.reverse t with
      | none => rw [happ] at ihc; simp at ihc
      | some q =>
        obtain ⟨t1, ms1, f1⟩ := q
        rw [happ] at ihc
        simp only [Option.map_some', Option.some.injEq, Prod.mk.injEq] at ihc
        obtain ⟨ht1, hms1⟩ := ihc
        have hdrop : t1.drop c.to_ = tl := by
          rw [ht1]
          exact drop_take_append htn
        by_cases hins : c.name = str "insertjs"
        · -- known command: `insertjs`
          have hkeq := execCmd_known_eq rf c t t1 tl (Or.inl hins) hdrop
          cases hr : execR rf t c tl with
          | none =>
            rw [hr] at hkeq
            simp only [Option.map_none'] at hkeq
            simp [applyText, hkeq, reconFrom, hrec, hr]
          | some r =>
            rw [hr] at hkeq
            simp only [Option.map_some'] at hkeq
            have hfil : unknownMsgOf c = none := by
              simp [unknownMsgOf, hins]
            simp only [applyText, hkeq, Option.map_some', reconFrom, hrec, hr,
              List.filterMap_cons, hfil]
            simp only [Option.map_some', Option.some.injEq, Prod.mk.injEq]
            constructor
            · rw [ht1, take_take_append hft htn, drop_take_append htn]
              rw [← List.append_assoc, ← List.append_assoc]
              rw [take_append_extract t hlo]
            · rw [hms1, List.append_nil]
        · by_cases htoc : c.name = str "toc"
          · -- known command: `toc`
            have hkeq := execCmd_known_eq rf c t t1 tl (Or.inr htoc) hdrop
            cases hr : execR rf t c tl with
            | none =>
              rw [hr] at hkeq
              simp only [Option.map_none'] at hkeq
              simp [applyText, hkeq, reconFrom, hrec, hr]
            | some r =>
              rw [hr] at hkeq
              simp only [Option.map_some'] at hkeq
              have hfil : unknownMsgOf c = none := by
                simp [unknownMsgOf, htoc]
              simp only [applyText, hkeq, Option.map_some', reconFrom, hrec, hr,
                List.filterMap_cons, hfil]
              simp only [Option.map_some', Option.some.injEq, Prod.mk.injEq]
              constructor
              · rw [ht1, take_take_append hft htn, drop_take_append htn]
                rw [← List.append_assoc, ← List.append_assoc]
                rw [take_append_extract t hlo]
              · rw [hms1, List.append_nil]
          · -- unknown command
            obtain ⟨hcmd, hrr⟩ := execCmd_unknown rf c t t1 tl hins htoc
            have hfil : unknownMsgOf c = some (.error (unknownText c.name)) := by
              simp [unknownMsgOf, hins, htoc]
            simp only [applyText, hcmd, Option.map_some', reconFrom, hrec, hrr,
              List.filterMap_cons, hfil]
            simp only [Option.map_some', Option.some.injEq, Prod.mk.injEq]
            constructor
            · rw [ht1]
              rw [← List.append_assoc, ← List.append_assoc]
              rw [take_append_extract t hlo, take_append_extract t hft]
            · rw [hms1]
              simp

/-! ## Properties of the reconstruction -/

theorem reconFrom_length (rf : Str → Option Str) (t : Str) :
    ∀ (l : List Cmd) (i : Nat) (tl : Str) (reps : List Str),
      reconFrom rf t i l = some (tl, reps) → reps.length = l.length := by
  intro l
  induction l with
  | nil =>
    intro i tl reps h
    simp only [reconFrom, Option.some.injEq, Prod.mk.injEq] at h
    obtain ⟨_, h2⟩ := h
    subst h2
    rfl
  | cons c rest ih =>
    intro i tl reps h
    unfold reconFrom at h
    split at h
    · exact absurd h (by simp)
    next tl1 rs hrec =>
      split at h
      · exact absurd h (by simp)
      next r hr =>
        simp only [Option.some.injEq, Prod.mk.injEq] at h
        obtain ⟨_, h2⟩ := h
        subst h2
        simp [ih _ _ _ hrec]

theorem reconFrom_reconP (rf : Str → Option Str) (t : Str) :
    ∀ (l : List Cmd) (i : Nat) (tl : Str) (reps : List Str),
      reconFrom rf t i l = some (tl, reps) → tl = reconP t i (l.zip reps) := by
  intro l
  induction l with
  | nil =>
    intro i tl reps h
    simp only [reconFrom, Option.some.injEq, Prod.mk.injEq] at h
    obtain ⟨h1, h2⟩ := h
    subst h2
    simp [reconP, h1.symm]
  | cons c rest ih =>
    intro i tl reps h
    unfold reconFrom at h
    split at h
    · exact absurd h (by simp)
    next tl1 rs hrec =>
      split at h
      · exact absurd h (by simp)
      next r hr =>
        simp only [Option.some.injEq, Prod.mk.injEq] at h
        obtain ⟨h1, h2⟩ := h
        subst h2
        rw [← h1, List.zip_cons_cons, reconP, ← ih _ _ _ hrec]

theorem reconFrom_get_unknown (rf : Str → Option Str) (t : Str) :
    ∀ (l : List Cmd) (n : Nat) (i : Nat) (tl : Str) (reps : List Str) (c : Cmd),
      reconFrom rf t i l = some (tl, reps) → l.get? n = some c →
      ¬c.name = str "insertjs" → ¬c.name = str "toc" →
      reps.get? n = some (extract t c.from_ c.to_) := by
  intro l
  induction l with
  | nil => intro n i tl reps c _ hget; simp at hget
  | cons e rest ih =>
    intro n i tl reps c h hget hins htoc
    unfold reconFrom at h
    split at h
    · exact absurd h (by simp)
    next tl1 rs hrec =>
      split at h
      · exact absurd h (by simp)
      next r hr =>
        simp only [Option.some.injEq, Prod.mk.injEq] at h
        obtain ⟨h1, h2⟩ := h
        subst h2
        cases n with
        | zero =>
          simp only [List.get?_cons_zero, Option.some.injEq] at hget
          subst hget
          have hex : execR rf t e tl1 = some (extract t e.from_ e.to_) := by
            unfold execR
            rw [if_neg hins, if_neg htoc]
          rw [hex] at hr
          simp only [Option.some.injEq] at hr
          simp [hr]
        | succ m =>
          simp only [List.get?_cons_succ] at hget
          simpa using ih m _ _ _ c hrec hget hins htoc

theorem reconFrom_get_toc (rf : Str → Option Str) (t : Str) :
    ∀ (l : List Cmd) (n : Nat) (i : Nat) (tl : Str) (reps : List Str) (c : Cmd),
      reconFrom rf t i l = some (tl, reps) → l.get? n = some c →
      c.name = str "toc" →
      ∃ tl2 reps2 r,
        reconFrom rf t c.to_ (l.drop (n + 1)) = some (tl2, reps2) ∧
        generateTableOfContents tl2 = some r ∧
        reps.get? n = some r := by
  intro l
  induction l with
  | nil => intro n i tl reps c _ hget; simp at hget
  | cons e rest ih =>
    intro n i tl reps c h hget htoc
    unfold reconFrom at h
    split at h
    · exact absurd h (by simp)
    next tl1 rs hrec =>
      split at h
      · exact absurd h (by simp)
      next r hr =>
        simp only [Option.some.injEq, Prod.mk.injEq] at h
        obtain ⟨h1, h2⟩ := h
        subst h2
        cases n with
        | zero =>
          simp only [List.get?_cons_zero, Option.some.injEq] at hget
          subst hget
          have hins : ¬e.name = str "insertjs" := by
            rw [htoc]; decide
          have hex : execR rf t e tl1 = generateTableOfContents tl1 := by
            unfold execR
            rw [if_neg hins, if_pos htoc]
          rw [hex] at hr
          exact ⟨tl1, rs, r, by simpa using hrec, hr, by simp⟩
        | succ m =>
          simp only [List.get?_cons_succ] at hget
          simpa using ih m _ _ _ c hrec hget htoc

/-! ## The sort step -/

theorem insertDesc_all_gt {c : Cmd} :
    ∀ {ds : List Cmd}, (∀ d ∈ ds, ¬d.from_ ≤ c.from_) → insertDesc c ds = ds ++ [c] := by
  intro ds
  induction ds with
  | nil => intro _; rfl
  | cons d rest ih =>
    intro hall
    unfold insertDesc
    rw [if_neg (hall d (by simp))]
    rw [ih (fun e he => hall e (by simp [he]))]
    rfl

theorem sortDesc_strict_asc :
    ∀ {l : List Cmd}, List.Pairwise (fun a b => a.from_ < b.from_) l →
      sortDesc l = l.reverse := by
  intro l
  induction l with
  | nil => intro _; rfl
  | cons c cs ih =>
    intro hp
    rw [List.pairwise_cons] at hp
    obtain ⟨hall, hcs⟩ := hp
    unfold sortDesc
    rw [ih hcs, List.reverse_cons]
    exact insertDesc_all_gt (fun d hd => by
      have := hall d (by simpa using hd)
      omega)

theorem ChainOK_pairwise_from {n lo : Nat} {l : List Cmd} (h : ChainOK n lo l) :
    List.Pairwise (fun a b => a.from_ < b.from_) l := by
  induction l generalizing lo with
  | nil => exact List.Pairwise.nil
  | cons c rest ih =>
    obtain ⟨h1, h2, h3, h4⟩ := h
    refine List.Pairwise.cons ?_ (ih h4)
    intro b hb
    have := ChainOK_le_from h4 b hb
    omega

/-! ## From `applyLoop` on one source to `applyText` -/

theorem changed_combine (ch : List Nat) (P : Prop) [Decidable P] (f : Bool) :
    (if f = true ∧ 0 ∉ (if P ∧ 0 ∉ ch then ch ++ [0] else ch)
     then (if P ∧ 0 ∉ ch then ch ++ [0] else ch) ++ [0]
     else (if P ∧ 0 ∉ ch then ch ++ [0] else ch)) =
    (if (decide P || f) = true ∧ 0 ∉ ch then ch ++ [0] else ch) := by
  by_cases hp : P <;> by_cases hq : (0 : Nat) ∈ ch <;> cases f <;>
    simp [hp, hq, List.mem_append]

theorem applyLoop_singleton (rf : Str → Option Str) :
    ∀ (cmds : List Cmd), (∀ c ∈ cmds, c.srcIdx = 0) →
      ∀ (d : Source) (m0 : List Msg) (ch : List Nat),
        applyLoop rf cmds ⟨[d], m0, ch⟩ =
          (applyText rf cmds d.text).map
            (fun (t', ms, f) =>
              ⟨[{ d with text := t' }], m0 ++ ms,
                if f = true ∧ 0 ∉ ch then ch ++ [0] else ch⟩) := by
  intro cmds
  induction cmds with
  | nil =>
    intro _ d m0 ch
    simp [applyLoop, applyText]
  | cons c rest ih =>
    intro hsrc d m0 ch
    have hc0 : c.srcIdx = 0 := hsrc c (by simp)
    have hrest : ∀ e ∈ rest, e.srcIdx = 0 := fun e he => hsrc e (by simp [he])
    unfold applyLoop applyText
    rw [hc0]
    simp only [List.get?_cons_zero]
    cases hex : execCmd rf c d.text with
    | none => rfl
    | some o =>
      cases o with
      | none =>
        dsimp only
        rw [ih hrest d (m0 ++ [Msg.error (unknownText c.name)]) ch]
        cases h1 : applyText rf rest d.text with
        | none => rfl
        | some p =>
          obtain ⟨t', ms, f⟩ := p
          simp
      | some nt =>
        dsimp only
        rw [List.set_cons_zero]
        rw [ih hrest { d with text := d.text.take c.from_ ++ nt ++ d.text.drop c.to_ }
          m0 (if d.text.take c.from_ ++ nt ++ d.text.drop c.to_ ≠ d.text ∧ 0 ∉ ch
              then ch ++ [0] else ch)]
        cases h1 : applyText rf rest (d.text.take c.from_ ++ nt ++ d.text.drop c.to_) with
        | none => rfl
        | some p =>
          obtain ⟨t', ms, f⟩ := p
          simp only [Option.map_some']
          refine congrArg some ?_
          refine congrArg₂ (fun a b => St.mk a (m0 ++ ms) b) rfl ?_
          exact changed_combine ch _ f

theorem scanAll_singleton {d : Source} {cmds : List Cmd}
    (h : scanDoc 0 d.text = .ok cmds) : scanAll 0 [d] = .ok cmds := by
  unfold scanAll
  rw [h]
  unfold scanAll
  simp

/-- The engine on a single source, decomposed: when the run completes, the
final text is the `reconFrom` reconstruction, the messages are the
unknown-command errors (in processing order) followed by at most one
`updated` warning. -/
theorem run_single (d : Source) (rf : Str → Option Str) (cmds : List Cmd)
    (msgs : List Msg) (docs' : List Source)
    (hscan : scanDoc 0 d.text = .ok cmds)
    (hrun : runCommands [d] rf = some (msgs, docs')) :
    ∃ (tl : Str) (reps : List Str) (warn : List Msg),
      reconFrom rf d.text 0 cmds = some (tl, reps) ∧
      docs' = [{ d with text := tl }] ∧
      msgs = (cmds.filterMap unknownMsgOf).reverse ++ warn ∧
      (warn = [] ∨ warn = [.warning (updatedText d.projectPath)]) := by
  have hchain := scanDoc_chain hscan
  have hsrc : ∀ c ∈ cmds, c.srcIdx = 0 := fun c hc => scanLoop_srcIdx hscan c hc
  have hsort : sortDesc cmds = cmds.reverse :=
    sortDesc_strict_asc (ChainOK_pairwise_from hchain)
  have hmaster := applyText_reverse rf d.text cmds 0 hchain
  unfold runCommands at hrun
  rw [scanAll_singleton hscan] at hrun
  dsimp only at hrun
  rw [hsort] at hrun
  rw [applyLoop_singleton rf cmds.reverse
    (fun c hc => hsrc c (List.mem_reverse.mp hc)) d [] []] at hrun
  cases happ : applyText rf cmds.reverse d.text with
  | none =>
    rw [happ] at hrun
    simp at hrun
  | some p =>
    obtain ⟨t', ms, f⟩ := p
    rw [happ] at hmaster hrun
    cases hrec : reconFrom rf d.text 0 cmds with
    | none =>
      rw [hrec] at hmaster
      simp at hmaster
    | some q =>
      obtain ⟨tl, reps⟩ := q
      rw [hrec] at hmaster
      simp only [Option.map_some', Option.some.injEq, Prod.mk.injEq] at hmaster
      obtain ⟨ht', hms⟩ := hmaster
      rw [List.take_zero, List.nil_append] at ht'
      subst ht'
      subst hms
      simp only [Option.map_some'] at hrun
      cases f with
      | false =>
        simp at hrun
        obtain ⟨h1, h2⟩ := hrun
        exact ⟨t', reps, [], rfl, h2.symm, by simp [← h1], Or.inl rfl⟩
      | true =>
        simp at hrun
        obtain ⟨h1, h2⟩ := hrun
        exact ⟨t', reps, [Msg.warning (updatedText d.projectPath)], rfl, h2.symm,
          by simp [← h1], Or.inr rfl⟩
  
/-! ## C4, C9, C10: the apply phase -/

/-- C4: for a document whose scanned commands all succeed (every name is
known and the run completes), one engine pass yields exactly the text that
replaces each scanned `[from,to)` region with its computed replacement,
leaving every character outside those regions identical to the original
(`reconP` is precisely that interleaving; the engine applies the splices in
descending `from` order, which `runCommands`'s sort performs). -/
theorem C4_regions_replaced (d : Source) (rf : Str → Option Str) (cmds : List Cmd)
    (msgs : List Msg) (docs' : List Source)
    (hscan : scanDoc 0 d.text = .ok cmds)
    (hrun : runCommands [d] rf = some (msgs, docs'))
    (hok : ∀ c ∈ cmds, c.name = str "insertjs" ∨ c.name = str "toc") :
    (∃ reps : List Str,
      reps.length = cmds.length ∧
      reconFrom rf d.text 0 cmds = some (reconP d.text 0 (cmds.zip reps), reps) ∧
      docs' = [{ d with text := reconP d.text 0 (cmds.zip reps) }]) ∧
    ∀ m ∈ msgs, ∀ e : Str, ¬(m = Msg.error e) := by
  obtain ⟨tl, reps, warn, hrec, hdocs, hmsgs, hwarn⟩ :=
    run_single d rf cmds msgs docs' hscan hrun
  have hP := reconFrom_reconP rf d.text cmds 0 tl reps hrec
  constructor
  · refine ⟨reps, reconFrom_length rf d.text cmds 0 tl reps hrec, ?_, ?_⟩
    · rw [← hP]; exact hrec
    · rw [← hP]; exact hdocs
  · have hnil : cmds.filterMap unknownMsgOf = [] := by
      rw [List.filterMap_eq_nil_iff]
      intro c hc
      unfold unknownMsgOf
      rcases hok c hc with h | h
      · rw [if_pos h]
      · rw [h, if_neg (by decide : ¬(str "toc" = str "insertjs")), if_pos rfl]
    rw [hnil] at hmsgs
    simp only [List.reverse_nil, List.nil_append] at hmsgs
    subst hmsgs
    rcases hwarn with h | h <;> rw [h]
    · intro m hm
      cases hm
    · intro m hm e
      rcases List.mem_singleton.mp hm with rfl
      simp

theorem unknownText_inj {a b : Str} (h : unknownText a = unknownText b) : a = b :=
  List.append_cancel_right (List.append_cancel_left h)

theorem count_unknown_filterMap (c : Cmd) (hins : ¬c.name = str "insertjs")
    (htoc : ¬c.name = str "toc") :
    ∀ cmds : List Cmd,
      (cmds.filterMap unknownMsgOf).count (Msg.error (unknownText c.name)) =
      (cmds.filter (fun e => e.name = c.name)).length := by
  intro cmds
  induction cmds with
  | nil => rfl
  | cons e rest ih =>
    by_cases heq : e.name = c.name
    · have hins' : ¬e.name = str "insertjs" := by rw [heq]; exact hins
      have htoc' : ¬e.name = str "toc" := by rw [heq]; exact htoc
      have hm : unknownMsgOf e = some (Msg.error (unknownText e.name)) := by
        unfold unknownMsgOf
        rw [if_neg hins', if_neg htoc']
      simp [List.filterMap_cons, hm, heq, List.count_cons, List.filter_cons, ih]
    · by_cases hkn : e.name = str "insertjs" ∨ e.name = str "toc"
      · have hm : unknownMsgOf e = none := by
          unfold unknownMsgOf
          cases hkn with
          | inl h1 => rw [if_pos h1]
          | inr h2 =>
            by_cases h1 : e.name = str "insertjs"
            · rw [if_pos h1]
            · rw [if_neg h1, if_pos h2]
        simp [List.filterMap_cons, hm, List.filter_cons, heq, ih]
      · push_neg at hkn
        have hm : unknownMsgOf e = some (Msg.error (unknownText e.name)) := by
          unfold unknownMsgOf
          rw [if_neg hkn.1, if_neg hkn.2]
        have hne : ¬(Msg.error (unknownText e.name) = Msg.error (unknownText c.name)) := by
          intro hx
          exact heq (unknownText_inj (by injection hx))
        simp [List.filterMap_cons, hm, List.count_cons, List.filter_cons, heq, hne, ih]

/-- C9: a scanned command with an unknown name contributes exactly one error
diagnostic per occurrence of that name (count = number of same-named
commands), its own replacement slot is the untouched original region
`extract text from to`, and the whole document is still rebuilt with every
other command's replacement applied. -/
theorem C9_unknown_region_kept (d : Source) (rf : Str → Option Str) (cmds : List Cmd)
    (msgs : List Msg) (docs' : List Source) (n : Nat) (c : Cmd)
    (hscan : scanDoc 0 d.text = .ok cmds)
    (hget : cmds.get? n = some c)
    (hins : ¬c.name = str "insertjs") (htoc : ¬c.name = str "toc")
    (hrun : runCommands [d] rf = some (msgs, docs')) :
    ∃ reps : List Str,
      reconFrom rf d.text 0 cmds = some (reconP d.text 0 (cmds.zip reps), reps) ∧
      docs' = [{ d with text := reconP d.text 0 (cmds.zip reps) }] ∧
      reps.get? n = some (extract d.text c.from_ c.to_) ∧
      msgs.count (Msg.error (unknownText c.name)) =
        (cmds.filter (fun e => e.name = c.name)).length := by
  obtain ⟨tl, reps, warn, hrec, hdocs, hmsgs, hwarn⟩ :=
    run_single d rf cmds msgs docs' hscan hrun
  have hP := reconFrom_reconP rf d.text cmds 0 tl reps hrec
  refine ⟨reps, ?_, ?_, ?_, ?_⟩
  · rw [← hP]; exact hrec
  · rw [← hP]; exact hdocs
  · exact reconFrom_get_unknown rf d.text cmds n 0 tl reps c hrec hget hins htoc
  · have hwc : warn.count (Msg.error (unknownText c.name)) = 0 := by
      rcases hwarn with h | h <;> rw [h] <;> simp
    rw [hmsgs, List.count_append, List.count_reverse,
      count_unknown_filterMap c hins htoc cmds, hwc]
    omega

/-- C10: a `toc` command's replacement is the table of contents generated
from the rebuilt tail of the owning document starting at the command's `to`
offset — i.e. from text in which every command after the `toc` directive
already carries its replacement (the tail is itself a `reconP`
interleaving of the later commands' replacements). -/
theorem C10_toc_sees_updated_tail (d : Source) (rf : Str → Option Str)
    (cmds : List Cmd) (msgs : List Msg) (docs' : List Source) (n : Nat) (c : Cmd)
    (hscan : scanDoc 0 d.text = .ok cmds)
    (hget : cmds.get? n = some c)
    (htoc : c.name = str "toc")
    (hrun : runCommands [d] rf = some (msgs, docs')) :
    ∃ (reps : List Str) (tl2 : Str) (reps2 : List Str) (r : Str),
      reconFrom rf d.text 0 cmds = some (reconP d.text 0 (cmds.zip reps), reps) ∧
      docs' = [{ d with text := reconP d.text 0 (cmds.zip reps) }] ∧
      reconFrom rf d.text c.to_ (cmds.drop (n + 1)) = some (tl2, reps2) ∧
      tl2 = reconP d.text c.to_ ((cmds.drop (n + 1)).zip reps2) ∧
      generateTableOfContents tl2 = some r ∧
      reps.get? n = some r := by
  obtain ⟨tl, reps, warn, hrec, hdocs, hmsgs, hwarn⟩ :=
    run_single d rf cmds msgs docs' hscan hrun
  have hP := reconFrom_reconP rf d.text cmds 0 tl reps hrec
  obtain ⟨tl2, reps2, r, hrec2, hgen, hgetr⟩ :=
    reconFrom_get_toc rf d.text cmds n 0 tl reps c hrec hget htoc
  refine ⟨reps, tl2, reps2, r, ?_, ?_, hrec2, ?_, hgen, hgetr⟩
  · rw [← hP]; exact hrec
  · rw [← hP]; exact hdocs
  · exact reconFrom_reconP rf d.text _ _ tl2 reps2 hrec2

/-! ## Witness fixtures for the apply-phase theorems -/

def c4Doc : Source :=
  ⟨str "w.md",
   str "<!--gen:insertjs(f.js)-->o<!--gen:stop-->\n<!--gen:toc-->t<!--gen:stop-->\n# A\n"⟩

def rfW : Str → Option Str := fun a => if a = str "f.js" then some (str "// code\n") else none

def c4Cmds : List Cmd :=
  [⟨str "insertjs", [str "f.js"], 25, 26, str "o", 0⟩,
   ⟨str "toc", [], 56, 57, str "t", 0⟩]

def c4Out : Source :=
  ⟨str "w.md",
   str "<!--gen:insertjs(f.js)-->\nFile: [f.js](f.js)\n```js\n// code\n```\n<!--gen:stop-->\n<!--gen:toc-->\n- [A](#a)\n<!--gen:stop-->\n# A\n"⟩

theorem C4_regions_replaced_witness :
    (∃ reps : List Str,
      reps.length = c4Cmds.length ∧
      reconFrom rfW c4Doc.text 0 c4Cmds =
        some (reconP c4Doc.text 0 (c4Cmds.zip reps), reps) ∧
      [c4Out] = [{ c4Doc with text := reconP c4Doc.text 0 (c4Cmds.zip reps) }]) ∧
    ∀ m ∈ [Msg.warning (updatedText (str "w.md"))], ∀ e : Str, ¬(m = Msg.error e) :=
  C4_regions_replaced c4Doc rfW c4Cmds [Msg.warning (updatedText (str "w.md"))] [c4Out]
    rfl (by decide) (by decide)

def c8Text : Str := str "a<!--gen:toc-->x<!--gen:stop-->\nb<!--gen:insertjs(a)-->y<!--gen:stop-->"

def c8Cmds : List Cmd :=
  [⟨str "toc", [], 15, 16, str "x", 0⟩,
   ⟨str "insertjs", [str "a"], 55, 56, str "y", 0⟩]

theorem C8_scan_intervals_witness :
    (∀ c ∈ c8Cmds, c.from_ ≤ c.to_) ∧
    List.Pairwise (fun a b => a.to_ ≤ b.from_) c8Cmds :=
  C8_scan_intervals 0 c8Text c8Cmds rfl

def c9Doc : Source :=
  ⟨str "u.md", str "a<!--gen:frobnicate-->x<!--gen:stop-->\nb<!--gen:toc-->y<!--gen:stop-->\n# Z"⟩

def c9Cmds : List Cmd :=
  [⟨str "frobnicate", [], 22, 23, str "x", 0⟩,
   ⟨str "toc", [], 54, 55, str "y", 0⟩]

def c9Cmd : Cmd := ⟨str "frobnicate", [], 22, 23, str "x", 0⟩

def c9Out : Source :=
  ⟨str "u.md",
   str "a<!--gen:frobnicate-->x<!--gen:stop-->\nb<!--gen:toc-->\n- [Z](#z)\n<!--gen:stop-->\n# Z"⟩

def c9Msgs : List Msg :=
  [.error (unknownText (str "frobnicate")), .warning (updatedText (str "u.md"))]

theorem C9_unknown_region_kept_witness :
    ∃ reps : List Str,
      reconFrom rfNone c9Doc.text 0 c9Cmds =
        some (reconP c9Doc.text 0 (c9Cmds.zip reps), reps) ∧
      [c9Out] = [{ c9Doc with text := reconP c9Doc.text 0 (c9Cmds.zip reps) }] ∧
      reps.get? 0 = some (extract c9Doc.text c9Cmd.from_ c9Cmd.to_) ∧
      c9Msgs.count (Msg.error (unknownText c9Cmd.name)) =
        (c9Cmds.filter (fun e => e.name = c9Cmd.name)).length :=
  C9_unknown_region_kept c9Doc rfNone c9Cmds c9Msgs [c9Out] 0 c9Cmd
    rfl (by decide) (by decide) (by decide) (by decide)

def rfH : Str → Option Str := fun a => if a = str "h.js" then some (str "# Hey\n") else none

def c10Doc : Source :=
  ⟨str "v.md", str "<!--gen:toc-->t<!--gen:stop-->\n<!--gen:insertjs(h.js)-->o<!--gen:stop-->\n"⟩

def c10Cmds : List Cmd :=
  [⟨str "toc", [], 14, 15, str "t", 0⟩,
   ⟨str "insertjs", [str "h.js"], 56, 57, str "o", 0⟩]

def c10Toc : Cmd := ⟨str "toc", [], 14, 15, str "t", 0⟩

def c10Out : Source :=
  ⟨str "v.md",
   str "<!--gen:toc-->\n- [Hey](#hey)\n<!--gen:stop-->\n<!--gen:insertjs(h.js)-->\nFile: [h.js](h.js)\n```js\n# Hey\n```\n<!--gen:stop-->\n"⟩

/-- The `toc` at offsets `[14,15)` generates its list from the rebuilt tail
in which the later `insertjs` replacement (containing the heading `# Hey`)
is already in place. -/
theorem C10_toc_sees_updated_tail_witness :
    ∃ (reps : List Str) (tl2 : Str) (reps2 : List Str) (r : Str),
      reconFrom rfH c10Doc.text 0 c10Cmds =
        some (reconP c10Doc.text 0 (c10Cmds.zip reps), reps) ∧
      [c10Out] = [{ c10Doc with text := reconP c10Doc.text 0 (c10Cmds.zip reps) }] ∧
      reconFrom rfH c10Doc.text c10Toc.to_ (c10Cmds.drop 1) = some (tl2, reps2) ∧
      tl2 = reconP c10Doc.text c10Toc.to_ ((c10Cmds.drop 1).zip reps2) ∧
      generateTableOfContents tl2 = some r ∧
      reps.get? 0 = some r :=
  C10_toc_sees_updated_tail c10Doc rfH c10Cmds
    [.warning (updatedText (str "v.md"))] [c10Out] 0 c10Toc
    rfl (by decide) (by decide) (by decide)

/-! ## C7: dedup machinery -/

def fromDigits : List Nat → Nat
  | [] => 0
  | d :: ds => d + 10 * fromDigits ds

theorem natDigitsAux_from : ∀ (f n : Nat), n ≤ f → fromDigits (natDigitsAux f n) = n := by
  intro f
  induction f with
  | zero =>
    intro n h
    have : n = 0 := by omega
    subst this
    rfl
  | succ f ih =>
    intro n h
    unfold natDigitsAux
    by_cases h0 : n = 0
    · subst h0
      simp [fromDigits]
    · rw [if_neg h0]
      have hlt : n / 10 < n := Nat.div_lt_self (Nat.pos_of_ne_zero h0) (by omega)
      rw [fromDigits, ih (n / 10) (by omega)]
      omega

theorem natDigitsAux_lt : ∀ (f n : Nat), ∀ d ∈ natDigitsAux f n, d < 10 := by
  intro f
  induction f with
  | zero => intro n d hd; simp [natDigitsAux] at hd
  | succ f ih =>
    intro n d hd
    unfold natDigitsAux at hd
    by_cases h0 : n = 0
    · rw [if_pos h0] at hd
      simp at hd
    · rw [if_neg h0] at hd
      cases hd with
      | head => omega
      | tail _ hm => exact ih (n / 10) d hm

theorem digitChar_inj_lt {d e : Nat} (hd : d < 10) (he : e < 10)
    (h : digitChar d = digitChar e) : d = e := by
  interval_cases d <;> interval_cases e <;> revert h <;> decide

theorem map_digitChar_inj : ∀ {xs ys : List Nat}, (∀ d ∈ xs, d < 10) →
    (∀ d ∈ ys, d < 10) → xs.map digitChar = ys.map digitChar → xs = ys := by
  intro xs
  induction xs with
  | nil => intro ys _ _ h; cases ys with | nil => rfl | cons b bs => simp at h
  | cons a as ih =>
    intro ys hxs hys h
    cases ys with
    | nil => simp at h
    | cons b bs =>
      simp only [List.map_cons, List.cons.injEq] at h
      obtain ⟨h1, h2⟩ := h
      have ha := digitChar_inj_lt (hxs a (by simp)) (hys b (by simp)) h1
      rw [ha, ih (fun d hd => hxs d (by simp [hd])) (fun d hd => hys d (by simp [hd])) h2]

theorem natToChars_inj {a b : Nat} (h : natToChars a = natToChars b) : a = b := by
  unfold natToChars at h
  have h1 : (natDigitsAux a a).map digitChar = (natDigitsAux b b).map digitChar := by
    have := congrArg List.reverse h
    simpa using this
  have h2 : natDigitsAux a a = natDigitsAux b b :=
    map_digitChar_inj (natDigitsAux_lt a a) (natDigitsAux_lt b b) h1
  have h3 := congrArg fromDigits h2
  rw [natDigitsAux_from a a (Nat.le_refl a), natDigitsAux_from b b (Nat.le_refl b)] at h3
  exact h3

theorem candidate_injective (id : Str) : Function.Injective (candidate id) := by
  intro j k h
  unfold candidate at h
  cases j with
  | zero =>
    cases k with
    | zero => rfl
    | succ k' =>
      rw [if_pos rfl, if_neg (by omega)] at h
      have := congrArg List.length h
      simp at this
  | succ j' =>
    cases k with
    | zero =>
      rw [if_neg (by omega), if_pos rfl] at h
      have := congrArg List.length h
      simp at this
    | succ k' =>
      rw [if_neg (by omega), if_neg (by omega)] at h
      have h2 := List.append_cancel_left h
      simp only [List.cons.injEq, true_and] at h2
      exact natToChars_inj h2

theorem exists_free_candidate (ids : List Str) (id : Str) :
    ∃ j, j ≤ ids.length ∧ candidate id j ∉ ids := by
  by_contra hall
  push_neg at hall
  have hmap : (List.range (ids.length + 1)).map (candidate id) ⊆ ids := by
    intro x hx
    simp only [List.mem_map, List.mem_range] at hx
    obtain ⟨j, hj, rfl⟩ := hx
    exact hall j (by omega)
  have hnd : ((List.range (ids.length + 1)).map (candidate id)).Nodup :=
    (List.nodup_range _).map (candidate_injective id)
  have hle := (List.subperm_of_subset hnd hmap).length_le
  simp at hle

theorem dedupGo_spec (ids : List Str) (id : Str) :
    ∀ (fuel k0 : Nat), (∃ j, j < fuel ∧ candidate id (k0 + j) ∉ ids) →
      ∃ j, dedupGo ids id fuel k0 = candidate id (k0 + j) ∧
        candidate id (k0 + j) ∉ ids ∧ ∀ i < j, candidate id (k0 + i) ∈ ids := by
  intro fuel
  induction fuel with
  | zero =>
    intro k0 h
    obtain ⟨j, hj, _⟩ := h
    omega
  | succ f ih =>
    intro k0 h
    unfold dedupGo
    by_cases h0 : candidate id k0 ∈ ids
    · rw [if_pos h0]
      obtain ⟨j, hj, hfree⟩ := h
      have hj0 : j ≠ 0 := by
        rintro rfl
        exact hfree (by simpa using h0)
      obtain ⟨j2, heq, hfr, hall⟩ := ih (k0 + 1)
        ⟨j - 1, by omega, by
          have he : k0 + 1 + (j - 1) = k0 + j := by omega
          rw [he]; exact hfree⟩
      refine ⟨j2 + 1, ?_, ?_, ?_⟩
      · rw [heq]
        congr 1
        omega
      · have he : k0 + (j2 + 1) = k0 + 1 + j2 := by omega
        rw [he]; exact hfr
      · intro i hi
        cases i with
        | zero => simpa using h0
        | succ i' =>
          have he : k0 + (i' + 1) = k0 + 1 + i' := by omega
          rw [he]
          exact hall i' (by omega)
    · rw [if_neg h0]
      exact ⟨0, rfl, by simpa using h0, fun i hi => absurd hi (by omega)⟩

theorem dedupId_spec (ids : List Str) (id : Str) :
    ∃ j, dedupId ids id = candidate id j ∧ candidate id j ∉ ids ∧
      ∀ i < j, candidate id i ∈ ids := by
  obtain ⟨j, hj, hfree⟩ := exists_free_candidate ids id
  obtain ⟨j2, heq, hfr, hall⟩ := dedupGo_spec ids id (ids.length + 1) 0
    ⟨j, by omega, by simpa using hfree⟩
  exact ⟨j2, by simpa using heq, by simpa using hfr,
    fun i hi => by simpa using hall i hi⟩

theorem dedupId_not_mem (ids : List Str) (id : Str) : dedupId ids id ∉ ids := by
  obtain ⟨j, heq, hfr, _⟩ := dedupId_spec ids id
  rw [heq]
  exact hfr

theorem tocPass_ids (titles : List Str) :
    ∀ (ids0 : List Str) (es : List TocEntry), tocPass titles ids0 = some es →
      (∀ (n : Nat) (e : TocEntry), es.get? n = some e →
        e.id = dedupId (ids0 ++ (es.take n).map TocEntry.id) (slugOf e.name)) ∧
      (∀ e ∈ es, e.id ∉ ids0) ∧ (es.map TocEntry.id).Nodup := by
  induction titles with
  | nil =>
    intro ids0 es h
    simp only [tocPass, Option.some.injEq] at h
    subst h
    refine ⟨?_, ?_, ?_⟩ <;> simp
  | cons title rest ih =>
    intro ids0 es h
    unfold tocPass at h
    split at h
    · exact absurd h (by simp)
    next lvl nm hhead =>
      split at h
      · exact absurd h (by simp)
      next es' hrec =>
        simp only [Option.some.injEq] at h
        subst h
        obtain ⟨hidx, hmem, hnd⟩ := ih (ids0 ++ [dedupId ids0 (slugOf nm)]) es' hrec
        refine ⟨?_, ?_, ?_⟩
        · intro n e hget
          cases n with
          | zero =>
            simp only [List.get?_cons_zero, Option.some.injEq] at hget
            subst hget
            simp
          | succ m =>
            simp only [List.get?_cons_succ] at hget
            have := hidx m e hget
            rw [this]
            congr 1
            simp
        · intro e he
          cases he with
          | head => exact dedupId_not_mem ids0 (slugOf nm)
          | tail _ hm =>
            have := hmem e hm
            intro hx
            exact this (by simp [hx])
        · simp only [List.map_cons, List.nodup_cons]
          refine ⟨?_, hnd⟩
          intro hx
          simp only [List.mem_map] at hx
          obtain ⟨e, he, heq⟩ := hx
          have := hmem e he
          rw [heq] at this
          exact this (by simp)

/-- C7: within one `toc` invocation all generated anchor ids are pairwise
distinct; a heading whose derived slug is not yet registered keeps it, and
one whose slug is already registered gets the suffix `-k` for the first
unused positive integer `k` before the id is registered. -/
theorem C7_toc_ids_unique (md : Str) (es : List TocEntry)
    (h : tocEntriesOf md = some es) :
    (es.map TocEntry.id).Nodup ∧
    ∀ (n : Nat) (e : TocEntry), es.get? n = some e →
      (slugOf e.name ∉ (es.take n).map TocEntry.id → e.id = slugOf e.name) ∧
      (slugOf e.name ∈ (es.take n).map TocEntry.id →
        ∃ k, 1 ≤ k ∧ e.id = candidate (slugOf e.name) k ∧
          candidate (slugOf e.name) k ∉ (es.take n).map TocEntry.id ∧
          ∀ j, 1 ≤ j → j < k → candidate (slugOf e.name) j ∈ (es.take n).map TocEntry.id) := by
  obtain ⟨hidx, _, hnd⟩ := tocPass_ids (titlesOf md) [] es h
  refine ⟨hnd, ?_⟩
  intro n e hget
  have hid : e.id = dedupId ((es.take n).map TocEntry.id) (slugOf e.name) := by
    have := hidx n e hget
    simpa using this
  obtain ⟨j, heq, hfr, hall⟩ := dedupId_spec ((es.take n).map TocEntry.id) (slugOf e.name)
  constructor
  · intro hnotin
    cases j with
    | zero =>
      rw [hid, heq]
      rfl
    | succ j' =>
      have h0 := hall 0 (by omega)
      exact absurd (by simpa using h0) hnotin
  · intro hin
    cases j with
    | zero =>
      exact absurd hin (by simpa using hfr)
    | succ j' =>
      refine ⟨j' + 1, by omega, by rw [hid, heq], hfr, ?_⟩
      intro i _ hik
      exact hall i hik

def c7Md : Str := str "# a\n## a\n### a"

def c7Entries : List TocEntry :=
  [⟨1, str "a", str "a"⟩, ⟨2, str "a", str "a-1"⟩, ⟨3, str "a", str "a-2"⟩]

theorem C7_toc_ids_unique_witness :
    (c7Entries.map TocEntry.id).Nodup ∧
    ∀ (n : Nat) (e : TocEntry), c7Entries.get? n = some e →
      (slugOf e.name ∉ (c7Entries.take n).map TocEntry.id → e.id = slugOf e.name) ∧
      (slugOf e.name ∈ (c7Entries.take n).map TocEntry.id →
        ∃ k, 1 ≤ k ∧ e.id = candidate (slugOf e.name) k ∧
          candidate (slugOf e.name) k ∉ (c7Entries.take n).map TocEntry.id ∧
          ∀ j, 1 ≤ j → j < k →
            candidate (slugOf e.name) j ∈ (c7Entries.take n).map TocEntry.id) :=
  C7_toc_ids_unique c7Md c7Entries (by decide)

end Preproc
